import Mathlib

set_option maxHeartbeats 1000000

/-- Error kinds of the volatile VFS, following the error-handling design of
the specification (§7): `NotFound` (open without create on a missing
filename), `Busy` (delete with open handles; lock conflict), `InvalidOffset`,
`InvalidSize`, `InvalidRegion` (malformed request), `ShortRead` (read
partially past the extent) and `Invariant` (internal bug). -/
inductive VfsError where
  | NotFound
  | Busy
  | InvalidOffset
  | InvalidSize
  | InvalidRegion
  | ShortRead
  | Invariant
  deriving DecidableEq, Repr

/-- Content type of a file, the `type` field of `struct dqlite__vfs_content`
(src/c/src/vfs.h line 28): either the main database file or its write-ahead
log. -/
inductive DqliteVfsType where
  | MainDatabase
  | WriteAheadLog
  deriving DecidableEq, Repr

/-- Shallow embedding of `struct dqlite__vfs_page` (src/c/src/vfs.h lines
9-17): the content of a single page or WAL frame of a volatile file.  `buf`
is the page content, `hdr` the frame header (only for WAL pages), `dirty_mask`
the bit mask of dirty `buf` bytes to be re-written (one bit per byte of
`buf`, only for WAL pages; a NULL pointer, i.e. the empty list, otherwise —
the C field `dirty_mask_size`, the byte length of the mask array, is implicit
in the list length here), and `dirty_buf` the list of dirty byte values, one
for each bit with value 1 in `dirty_mask`, in bit order. -/
structure dqlite__vfs_page where
  buf : List Nat
  hdr : Option (List Nat)
  dirty_mask : List Bool
  dirty_buf : List Nat
  deriving DecidableEq, Repr

/-- Modelled from the spec: the read-time overlay of the dirty patch onto a
page buffer (the implementation file vfs.c is absent from src/, only the
header is present; spec §3 and §4.2: "reads must overlay the patch onto
`buffer` before returning data").  The buffer is walked together with the
dirty mask: a set bit takes the next dirty byte, a clear bit keeps the buffer
byte. -/
def overlay : List Nat → List Bool → List Nat → List Nat
  | [], _, _ => []
  | bs, [], _ => bs
  | b :: bs, false :: m, ds => b :: overlay bs m ds
  | _ :: bs, true :: m, ds => ds.headD 0 :: overlay bs m ds.tail

/-- Modelled from the spec: record one partially-written byte of a WAL frame
in the dirty mask and dirty byte list (vfs.c is absent from src/; spec §4.2:
written bytes "are recorded by setting the corresponding bits in `dirty_mask`
and appending the new values to `dirty_bytes`, rather than overwriting
`buffer` directly").  The invariant of spec §3 — one dirty byte per set bit,
in bit order — is maintained: a byte that is already dirty has its recorded
value replaced, a newly dirty byte has its value inserted at the position
given by the rank of its bit. -/
def writeDirty : List Bool → List Nat → Nat → Nat → List Bool × List Nat
  | [], ds, _, _ => ([], ds)
  | true :: m, ds, 0, v => (true :: m, v :: ds.tail)
  | false :: m, ds, 0, v => (true :: m, v :: ds)
  | true :: m, ds, i + 1, v =>
      (true :: (writeDirty m ds.tail i v).1,
        ds.headD 0 :: (writeDirty m ds.tail i v).2)
  | false :: m, ds, i + 1, v =>
      (false :: (writeDirty m ds i v).1, (writeDirty m ds i v).2)

/-- Modelled from the spec: reading a whole page or frame overlays the dirty
patch onto the as-first-written buffer (spec §4.2). -/
def pageRead (p : dqlite__vfs_page) : List Nat :=
  overlay p.buf p.dirty_mask p.dirty_buf

/-- Modelled from the spec: a partial write of one byte to a WAL frame only
touches the dirty tracking, never `buf` (spec §4.2). -/
def pageWriteByteWal (p : dqlite__vfs_page) (i v : Nat) : dqlite__vfs_page :=
  { p with dirty_mask := (writeDirty p.dirty_mask p.dirty_buf i v).1,
           dirty_buf := (writeDirty p.dirty_mask p.dirty_buf i v).2 }

/-- Modelled from the spec: a (possibly partial) write of a byte sequence to
a WAL frame at a byte offset inside the frame, recorded byte by byte in the
dirty tracking (spec §4.2). -/
def pageWriteWal (p : dqlite__vfs_page) (off : Nat) : List Nat → dqlite__vfs_page
  | [] => p
  | v :: vs => pageWriteWal (pageWriteByteWal p off v) (off + 1) vs

/-- Expected view of writing a byte sequence into a flat byte list at an
offset: the bytes are overlaid exactly at their offsets, everything else is
unchanged (bytes falling beyond the end of the list are dropped). -/
def setSeg : List Nat → Nat → List Nat → List Nat
  | [], _, _ => []
  | l, _, [] => l
  | _ :: t, 0, v :: vs => v :: setSeg t 0 vs
  | h :: t, o + 1, v :: vs => h :: setSeg t o (v :: vs)

/-- Modelled from the spec: a freshly written WAL frame — `buf` holds the
as-first-written bytes, the dirty mask is all-clear and the dirty byte list
is empty (spec §3). -/
def mkWalFrame (bytes : List Nat) : dqlite__vfs_page :=
  { buf := bytes, hdr := none,
    dirty_mask := List.replicate bytes.length false, dirty_buf := [] }

/-- Shallow embedding of `struct dqlite__vfs_content` (src/c/src/vfs.h lines
20-39): the content of a single file in the volatile file system.  The C
length fields `pages_len` and `shm_regions_len` are implicit in the list
lengths; `refcount` (the number of open file descriptors referencing this
file) is a count and so a `Nat`; `wal` — the pointer to the WAL file content,
for database files — is modelled as the filename of the linked WAL content;
`tx_refcount`, the number of ongoing transactions across all connections
using this database, is kept as a (C `int`) integer. -/
structure dqlite__vfs_content where
  filename : String
  hdr : Option (List Nat)
  pages : List dqlite__vfs_page
  page_size : Nat
  refcount : Nat
  type : DqliteVfsType
  shm_regions : List (List Nat)
  shm_refcount : Nat
  wal : Option String
  tx_refcount : Int
  deriving DecidableEq, Repr

/-- Default page used as the (never reached) fallback of list indexing. -/
def emptyPage : dqlite__vfs_page :=
  { buf := [], hdr := none, dirty_mask := [], dirty_buf := [] }

/-- Modelled from the spec: a freshly appended page of size `ps` holding the
written `bytes`, zero-padded to the page size (vfs.c is absent from src/;
spec §4.2: an aligned write with no page there yet "appends a new page sized
`page_size`").  A WAL frame carries an all-clear dirty mask, a main-database
page carries none (spec §3: `dirty_mask` is `None` for main-database
pages). -/
def mkPage (ps : Nat) (bytes : List Nat) (t : DqliteVfsType) : dqlite__vfs_page :=
  { buf := (bytes ++ List.replicate (ps - bytes.length) 0).take ps,
    hdr := none,
    dirty_mask := match t with
      | .WriteAheadLog => List.replicate ps false
      | .MainDatabase => [],
    dirty_buf := [] }

/-- Modelled from the spec: writes to main-database pages overwrite `buf`
directly, with no patching (spec §4.2). -/
def pageWriteMain (p : dqlite__vfs_page) (off : Nat) (bytes : List Nat) :
    dqlite__vfs_page :=
  { p with buf := setSeg p.buf off bytes }

/-- Modelled from the spec: dispatch of an in-page write on the content type
(spec §4.2): WAL frames record the bytes in the dirty tracking, main-database
pages are overwritten in place. -/
def pageWriteAt (p : dqlite__vfs_page) (off : Nat) (bytes : List Nat)
    (t : DqliteVfsType) : dqlite__vfs_page :=
  match t with
  | .WriteAheadLog => pageWriteWal p off bytes
  | .MainDatabase => pageWriteMain p off bytes

/-- Modelled from the spec: the extent of a file, `pages.len() * page_size`
(spec §4.2, `extent()`), 0 for an empty or just-created file. -/
def contentExtent (c : dqlite__vfs_content) : Nat :=
  c.pages.length * c.page_size

/-- Modelled from the spec: the flat byte string currently readable from the
file — the concatenation of the per-page read views, each of which overlays
the dirty patch onto the stored buffer (spec §4.2). -/
def contentBytes (c : dqlite__vfs_content) : List Nat :=
  (c.pages.map pageRead).flatten

/-- Modelled from the spec: `read(offset, length) -> bytes` (vfs.c is absent
from src/; spec §4.2): a range entirely at or beyond the current extent is
answered with zero-filled bytes and no error; a range entirely inside the
extent returns the stored bytes with no error; a range starting before the
extent but extending past it returns the actual bytes up to the extent
together with the `ShortRead` error.  The result pairs the returned bytes
with the optional error, matching a C read that fills a buffer and returns a
status code. -/
def vfs_read (c : dqlite__vfs_content) (offset length : Nat) :
    List Nat × Option VfsError :=
  if contentExtent c ≤ offset then (List.replicate length 0, none)
  else if offset + length ≤ contentExtent c then
    (((contentBytes c).drop offset).take length, none)
  else
    (((contentBytes c).drop offset).take length, some VfsError.ShortRead)

/-- Modelled from the spec: `write(offset, bytes)` (vfs.c is absent from
src/; spec §4.2).  The first ever write establishes `page_size` from its
length and must land at offset 0; afterwards a write whose offset falls
inside an existing page is applied to that page (dirty-tracked for a WAL
frame, in place for a main-database page), a write at the page boundary just
past the last page appends a new page, and anything else fails with
`InvalidOffset`.  Writes never span a page boundary, matching the engine's
page-at-a-time write pattern the spec derives `page_size` from. -/
def vfs_write (c : dqlite__vfs_content) (offset : Nat) (bytes : List Nat) :
    Except VfsError dqlite__vfs_content :=
  if c.pages.length = 0 ∧ c.page_size = 0 then
    if offset ≠ 0 then .error .InvalidOffset
    else if bytes.length = 0 then .error .InvalidSize
    else .ok { c with pages := [mkPage bytes.length bytes c.type],
                      page_size := bytes.length }
  else
    if offset / c.page_size < c.pages.length then
      if offset % c.page_size + bytes.length ≤ c.page_size then
        .ok { c with pages := (c.pages.set (offset / c.page_size)
          (pageWriteAt (c.pages.getD (offset / c.page_size) emptyPage)
            (offset % c.page_size) bytes c.type)) }
      else .error .InvalidOffset
    else
      if offset / c.page_size = c.pages.length ∧ offset % c.page_size = 0
          ∧ bytes.length ≤ c.page_size then
        .ok { c with pages := c.pages ++ [mkPage c.page_size bytes c.type] }
      else .error .InvalidOffset

/-- Modelled from the spec: `truncate(new_size)` drops the trailing pages
beyond `new_size / page_size` and fails with `InvalidSize` if `new_size` is
not a multiple of `page_size` and not zero (vfs.c is absent from src/; spec
§4.2).  When `page_size` is still 0, `new_size % page_size` reduces to
`new_size`, so only truncation to 0 is accepted. -/
def vfs_truncate (c : dqlite__vfs_content) (new_size : Nat) :
    Except VfsError dqlite__vfs_content :=
  if new_size % c.page_size = 0 then
    .ok { c with pages := c.pages.take (new_size / c.page_size) }
  else .error .InvalidSize

/-- Well-formedness of a file content, the invariants the spec states for the
data model (§3): every page buffer has the established `page_size`; a WAL
frame's dirty mask has one bit per buffer byte; a main-database page has no
dirty mask at all. -/
def ContentWF (c : dqlite__vfs_content) : Prop :=
  ∀ p ∈ c.pages,
    p.buf.length = c.page_size ∧
    (c.type = DqliteVfsType.WriteAheadLog → p.dirty_mask.length = p.buf.length) ∧
    (c.type = DqliteVfsType.MainDatabase → p.dirty_mask = [])

/-- Modelled from the spec: `begin_transaction(db_content)` increments the
in-flight transaction counter `tx_refcount` (vfs.c is absent from src/; spec
§4.5). -/
def begin_transaction (c : dqlite__vfs_content) : dqlite__vfs_content :=
  { c with tx_refcount := c.tx_refcount + 1 }

/-- Modelled from the spec: `end_transaction(db_content)` decrements
`tx_refcount` and fails with `Invariant` if it would go negative (vfs.c is
absent from src/; spec §4.5). -/
def end_transaction (c : dqlite__vfs_content) :
    Except VfsError dqlite__vfs_content :=
  if c.tx_refcount < 1 then .error .Invariant
  else .ok { c with tx_refcount := c.tx_refcount - 1 }

/-- Modelled from the spec: `can_checkpoint(db_content)` is true iff
`tx_refcount == 0` (vfs.c is absent from src/; spec §4.5). -/
def can_checkpoint (c : dqlite__vfs_content) : Bool :=
  c.tx_refcount == 0

/-- Transaction operations used to describe an arbitrary interleaving of
`begin_transaction` / `end_transaction` calls against one database content. -/
inductive TxOp where
  | beginTx
  | endTx
  deriving DecidableEq, Repr

/-- One transaction operation applied to a content; a failing
`end_transaction` leaves the content unchanged. -/
def applyTxOp (c : dqlite__vfs_content) : TxOp → dqlite__vfs_content
  | .beginTx => begin_transaction c
  | .endTx =>
    match end_transaction c with
    | .ok c' => c'
    | .error _ => c

/-- Size in bytes of one shared-memory region of the emulated WAL index
(32 KiB, the region size of the engine's WAL-index shared memory). -/
def SHM_REGION_SIZE : Nat := 32768

/-- Modelled from the spec: `map(region_index)` returns the region at
`region_index`, allocating and zero-filling a new fixed-size region exactly
when `region_index == shm_regions.len()`, and fails with `InvalidRegion`
when `region_index > shm_regions.len()` — regions must be mapped in
increasing order (vfs.c is absent from src/; spec §4.3). -/
def vfs_map (c : dqlite__vfs_content) (region_index : Nat) :
    Except VfsError (dqlite__vfs_content × List Nat) :=
  if region_index < c.shm_regions.length then
    .ok (c, c.shm_regions.getD region_index [])
  else if region_index = c.shm_regions.length then
    .ok ({ c with shm_regions :=
            c.shm_regions ++ [List.replicate SHM_REGION_SIZE 0] },
         List.replicate SHM_REGION_SIZE 0)
  else .error .InvalidRegion

/-- Suffix that marks a filename as a write-ahead log, spec §4.1: the content
kind is "inferred from filename suffix convention, e.g. WAL suffix". -/
def walSuffix : List Char := ['-', 'w', 'a', 'l']

/-- Modelled from the spec: the content kind inferred from the filename
suffix convention (vfs.c is absent from src/; spec §4.1). -/
def content_type_of (f : String) : DqliteVfsType :=
  if walSuffix.isSuffixOf f.data then .WriteAheadLog else .MainDatabase

/-- Modelled from the spec: the name of the main database file a WAL
filename belongs to — the filename with the WAL suffix stripped (spec §3:
a database content holds the reference to "its associated WriteAheadLog
content"). -/
def wal_main_filename (f : String) : String :=
  String.mk (f.data.take (f.data.length - walSuffix.length))

/-- Modelled from the spec: a freshly created, empty file content: no pages,
no established page size, no shared regions, no transactions; the descriptor
refcount is 1, accounting for the reference being returned (spec §4.1:
find-or-create "increments `descriptor_refcount` as part of returning a
reference intended for a new handle"). -/
def emptyContent (f : String) : dqlite__vfs_content :=
  { filename := f, hdr := none, pages := [], page_size := 0, refcount := 1,
    type := content_type_of f, shm_regions := [], shm_refcount := 0,
    wal := none, tx_refcount := 0 }

/-- Shallow embedding of `struct dqlite__vfs_root` (src/c/src/vfs.h lines
43-48): the root of the volatile file system, holding the content of all
files that were created (`contents_len` is implicit in the list length) and
the last error code.  The pthread mutex serializing access has no shallow
counterpart: registry operations are atomic steps of the embedding by
construction. -/
structure dqlite__vfs_root where
  contents : List dqlite__vfs_content
  error : Int
  deriving DecidableEq, Repr

/-- The registry as it exists before any file has been created. -/
def emptyRoot : dqlite__vfs_root := { contents := [], error := 0 }

/-- Lookup of a file content by name in the registry. -/
def findContent (r : dqlite__vfs_root) (f : String) :
    Option dqlite__vfs_content :=
  r.contents.find? (fun c => c.filename == f)

/-- Modelled from the spec: `exists(filename)` (vfs.c is absent from src/;
spec §4.1). -/
def vfs_exists (r : dqlite__vfs_root) (f : String) : Bool :=
  (findContent r f).isSome

/-- Modelled from the spec: `find_or_create(filename, create)` (vfs.c is
absent from src/; spec §4.1): under the registry lock, look up `filename`;
if present, increment its `refcount` and return; if absent and `create` is
true, insert a fresh empty content whose kind follows the filename suffix
convention (when that kind is `WriteAheadLog`, the main database content it
belongs to, if registered, records the new WAL in its `wal` field — spec §2:
"a database File Content tracks its associated WAL File Content"); if absent
and `create` is false, fail with `NotFound`. -/
def find_or_create (r : dqlite__vfs_root) (f : String) (create : Bool) :
    Except VfsError dqlite__vfs_root :=
  if r.contents.any (fun c => c.filename == f) then
    .ok { r with contents := r.contents.map (fun c =>
      if c.filename == f then { c with refcount := c.refcount + 1 } else c) }
  else if create then
    .ok { r with contents :=
      (if content_type_of f = DqliteVfsType.WriteAheadLog then
        r.contents.map (fun c =>
          if c.filename = wal_main_filename f
              ∧ c.type = DqliteVfsType.MainDatabase then
            { c with wal := some f }
          else c)
      else r.contents) ++ [emptyContent f] }
  else .error .NotFound

/-- Modelled from the spec: `release(content, handle)` decrements the
descriptor refcount and never deallocates (vfs.c is absent from src/; spec
§4.1). -/
def vfs_release (c : dqlite__vfs_content) : dqlite__vfs_content :=
  { c with refcount := c.refcount - 1 }

/-- Modelled from the spec: `delete(filename)` fails with `Busy` if the
content's `refcount` is positive and otherwise removes the content from the
registry (vfs.c is absent from src/; spec §4.1); a missing filename fails
with `NotFound`. -/
def vfs_delete (r : dqlite__vfs_root) (f : String) :
    Except VfsError dqlite__vfs_root :=
  match findContent r f with
  | none => .error .NotFound
  | some c =>
    if 0 < c.refcount then .error .Busy
    else .ok { r with contents :=
      r.contents.filter (fun c => !(c.filename == f)) }

/-- Modelled from the spec: `set_last_error(code)` overwrites the registry's
single diagnostic error slot, last write wins (vfs.c is absent from src/;
spec §4.1). -/
def set_last_error (r : dqlite__vfs_root) (code : Int) : dqlite__vfs_root :=
  { r with error := code }

/-- Modelled from the spec: `last_error()` reads the registry's diagnostic
error slot (vfs.c is absent from src/; spec §4.1). -/
def last_error (r : dqlite__vfs_root) : Int :=
  r.error

/-- Numeric code stored in the registry's `error` field for each error kind
(the C field is an `int`; the specific values are representative, only their
identity matters to the embedding). -/
def errcode : VfsError → Int
  | .NotFound => 1
  | .InvalidOffset => 2
  | .InvalidSize => 3
  | .InvalidRegion => 4
  | .Busy => 5
  | .ShortRead => 6
  | .Invariant => 7

/-- C7 counterexample input: a content with one page of (established) page
size 1, so with extent 1. -/
def oneByteContent : dqlite__vfs_content :=
  { filename := "test.db", hdr := none,
    pages := [{ buf := [5], hdr := none, dirty_mask := [], dirty_buf := [] }],
    page_size := 1, refcount := 0, type := DqliteVfsType.MainDatabase,
    shm_regions := [], shm_refcount := 0, wal := none, tx_refcount := 0 }

/-- Descriptor refcount of the content registered under a filename, 0 when
no such content exists. -/
def contentRefcount (r : dqlite__vfs_root) (f : String) : Nat :=
  match findContent r f with
  | some c => c.refcount
  | none => 0

/-- Modelled from the spec: application of a content-level operation to the
file registered under `f`, as a file handle does through its content
reference: the updated content replaces the old one in the registry; a
failing operation records its error code in the registry's diagnostic slot
and changes nothing else; a missing filename records `NotFound`. -/
def updateWith (r : dqlite__vfs_root) (f : String)
    (g : dqlite__vfs_content → Except VfsError dqlite__vfs_content) :
    dqlite__vfs_root :=
  match findContent r f with
  | none => set_last_error r (errcode .NotFound)
  | some c =>
    match g c with
    | .error e => set_last_error r (errcode e)
    | .ok c' => { r with contents := (r.contents.map (fun d =>
        if d.filename == f then c' else d)) }

/-- Registry-level operations: everything that can touch the registry state,
used to describe an arbitrary sequence of VFS calls. -/
inductive RootOp where
  | findOrCreate (f : String) (create : Bool)
  | deleteFile (f : String)
  | writeFile (f : String) (offset : Nat) (bytes : List Nat)
  | truncateFile (f : String) (size : Nat)
  | readFile (f : String) (offset length : Nat)
  | mapRegion (f : String) (i : Nat)
  | beginTxOn (f : String)
  | endTxOn (f : String)
  | releaseFile (f : String)
  deriving DecidableEq, Repr

/-- One registry-level operation applied to the registry state.  An
operation that fails records its error code in the registry's `error` slot
(spec §4.1: the slot is "overwritten on every failing operation — last write
wins") and leaves the contents as the operation's failure semantics dictate;
a successful operation leaves the `error` slot untouched. -/
def applyRootOp (r : dqlite__vfs_root) : RootOp → dqlite__vfs_root
  | .findOrCreate f b =>
    match find_or_create r f b with
    | .ok r' => r'
    | .error e => set_last_error r (errcode e)
  | .deleteFile f =>
    match vfs_delete r f with
    | .ok r' => r'
    | .error e => set_last_error r (errcode e)
  | .writeFile f off bs => updateWith r f (fun c => vfs_write c off bs)
  | .truncateFile f sz => updateWith r f (fun c => vfs_truncate c sz)
  | .readFile f off len =>
    match findContent r f with
    | none => set_last_error r (errcode .NotFound)
    | some c =>
      match (vfs_read c off len).2 with
      | some e => set_last_error r (errcode e)
      | none => r
  | .mapRegion f i => updateWith r f (fun c => (vfs_map c i).map Prod.fst)
  | .beginTxOn f => updateWith r f (fun c => .ok (begin_transaction c))
  | .endTxOn f => updateWith r f end_transaction
  | .releaseFile f => updateWith r f (fun c => .ok (vfs_release c))

/-- Failure code, if any, that a content-level operation run through
`updateWith` produces in a given registry state. -/
def contentOpFailure (r : dqlite__vfs_root) (f : String)
    (g : dqlite__vfs_content → Except VfsError dqlite__vfs_content) :
    Option Int :=
  match findContent r f with
  | none => some (errcode .NotFound)
  | some c =>
    match g c with
    | .error e => some (errcode e)
    | .ok _ => none

/-- Failure code, if any, that an operation produces in a given registry
state; `none` when the operation succeeds there. -/
def opFailureCode (r : dqlite__vfs_root) : RootOp → Option Int
  | .findOrCreate f b =>
    match find_or_create r f b with
    | .ok _ => none
    | .error e => some (errcode e)
  | .deleteFile f =>
    match vfs_delete r f with
    | .ok _ => none
    | .error e => some (errcode e)
  | .writeFile f off bs => contentOpFailure r f (fun c => vfs_write c off bs)
  | .truncateFile f sz => contentOpFailure r f (fun c => vfs_truncate c sz)
  | .readFile f off len =>
    match findContent r f with
    | none => some (errcode .NotFound)
    | some c => ((vfs_read c off len).2).map errcode
  | .mapRegion f i => contentOpFailure r f (fun c => (vfs_map c i).map Prod.fst)
  | .beginTxOn f => contentOpFailure r f (fun c => .ok (begin_transaction c))
  | .endTxOn f => contentOpFailure r f end_transaction
  | .releaseFile f => contentOpFailure r f (fun c => .ok (vfs_release c))

/-- The code of the most recent failure along a sequence of operations run
from a given registry state, starting from a given initial code `e`: a
failing operation replaces the running code with its own, a successful one
keeps it. -/
def traceError (r : dqlite__vfs_root) (e : Int) : List RootOp → Int
  | [] => e
  | op :: ops => traceError (applyRootOp r op) ((opFailureCode r op).getD e) ops

/-- WAL linkage invariant: a content of kind `WriteAheadLog` has no `wal`
reference; only a `MainDatabase` content ever holds one; and no content's
`wal` field names the content itself. -/
def WalLinkInv (r : dqlite__vfs_root) : Prop :=
  ∀ c ∈ r.contents,
    (c.type = DqliteVfsType.WriteAheadLog → c.wal = none) ∧
    (∀ g, c.wal = some g →
      c.type = DqliteVfsType.MainDatabase ∧ g ≠ c.filename)

/-- Concrete main-database content with one two-byte page, used to evaluate
the read/write contracts on explicit inputs. -/
def exampleMainContent : dqlite__vfs_content :=
  { filename := "test.db", hdr := none,
    pages := [{ buf := [1, 2], hdr := none, dirty_mask := [], dirty_buf := [] }],
    page_size := 2, refcount := 0, type := DqliteVfsType.MainDatabase,
    shm_regions := [], shm_refcount := 0, wal := none, tx_refcount := 0 }

/-- Concrete registry holding one content with an open descriptor. -/
def exampleBusyRoot : dqlite__vfs_root :=
  { contents := [{ exampleMainContent with refcount := 1 }], error := 0 }

/-- The content obtained from `exampleMainContent` by overwriting its page
with the bytes `[7, 8]`. -/
def exampleWrittenContent : dqlite__vfs_content :=
  { filename := "test.db", hdr := none,
    pages := [{ buf := [7, 8], hdr := none, dirty_mask := [], dirty_buf := [] }],
    page_size := 2, refcount := 0, type := DqliteVfsType.MainDatabase,
    shm_regions := [], shm_refcount := 0, wal := none, tx_refcount := 0 }

theorem overlay_length : ∀ (buf : List Nat) (m : List Bool) (ds : List Nat),
    (overlay buf m ds).length = buf.length := by
  intro buf
  induction buf with
  | nil => intro m ds; simp [overlay]
  | cons b bs ih =>
    intro m ds
    cases m with
    | nil => simp [overlay]
    | cons bb m' => cases bb <;> simp [overlay, ih]

theorem writeDirty_fst_length : ∀ (m : List Bool) (ds : List Nat) (i v : Nat),
    (writeDirty m ds i v).1.length = m.length := by
  intro m
  induction m with
  | nil => intro ds i v; rfl
  | cons bb m' ih =>
    intro ds i v
    cases bb <;> cases i <;> simp [writeDirty, ih]

theorem overlay_writeDirty : ∀ (m : List Bool) (buf ds : List Nat) (i v : Nat),
    m.length = buf.length →
    overlay buf (writeDirty m ds i v).1 (writeDirty m ds i v).2
      = (overlay buf m ds).set i v := by
  intro m
  induction m with
  | nil =>
    intro buf ds i v h
    have hb : buf = [] := by
      cases buf with
      | nil => rfl
      | cons x xs => simp at h
    subst hb
    rfl
  | cons bb m' ih =>
    intro buf ds i v h
    cases buf with
    | nil => simp at h
    | cons x bs =>
      have hlen : m'.length = bs.length := by simpa using h
      cases bb with
      | false =>
        cases i with
        | zero => simp [writeDirty, overlay]
        | succ n => simp [writeDirty, overlay, ih bs ds n v hlen]
      | true =>
        cases i with
        | zero => simp [writeDirty, overlay]
        | succ n => simp [writeDirty, overlay, ih bs ds.tail n v hlen]

theorem setSeg_nil_right : ∀ (l : List Nat) (off : Nat), setSeg l off [] = l := by
  intro l off
  cases l <;> simp [setSeg]

theorem setSeg_set : ∀ (l : List Nat) (off v : Nat) (vs : List Nat),
    setSeg (l.set off v) (off + 1) vs = setSeg l off (v :: vs) := by
  intro l
  induction l with
  | nil => intro off v vs; simp [setSeg]
  | cons h t ih =>
    intro off v vs
    cases off with
    | zero =>
      cases vs with
      | nil => simp [setSeg, setSeg_nil_right]
      | cons w ws => simp [setSeg]
    | succ o =>
      cases vs with
      | nil =>
        simp [setSeg, setSeg_nil_right]
        rw [← ih o v [], setSeg_nil_right]
      | cons w ws => simp [setSeg, ih]

theorem setSeg_length : ∀ (l : List Nat) (off : Nat) (b : List Nat),
    (setSeg l off b).length = l.length := by
  intro l
  induction l with
  | nil => intro off b; simp [setSeg]
  | cons h t ih =>
    intro off b
    cases b with
    | nil => simp [setSeg_nil_right]
    | cons v vs =>
      cases off with
      | zero => simp [setSeg, ih]
      | succ o => simp [setSeg, ih]

theorem setSeg_append_left : ∀ (xs : List Nat) (off : Nat) (b ys : List Nat),
    off + b.length ≤ xs.length →
    setSeg (xs ++ ys) off b = setSeg xs off b ++ ys := by
  intro xs
  induction xs with
  | nil =>
    intro off b ys h
    have hb : b = [] := by
      cases b with
      | nil => rfl
      | cons v vs =>
        simp only [List.length_nil, List.length_cons] at h
        omega
    subst hb
    simp [setSeg, setSeg_nil_right]
  | cons x t ih =>
    intro off b ys h
    cases b with
    | nil => simp [setSeg_nil_right]
    | cons v vs =>
      cases off with
      | zero =>
        simp only [List.cons_append, setSeg, List.append_eq]
        rw [ih 0 vs ys (by simp at h; omega)]
      | succ o =>
        simp only [List.cons_append, setSeg, List.append_eq]
        rw [ih o (v :: vs) ys (by simp at h ⊢; omega)]

theorem setSeg_append_right : ∀ (xs ys : List Nat) (k : Nat) (b : List Nat),
    setSeg (xs ++ ys) (xs.length + k) b = xs ++ setSeg ys k b := by
  intro xs
  induction xs with
  | nil => intro ys k b; simp
  | cons x t ih =>
    intro ys k b
    cases b with
    | nil => simp [setSeg_nil_right]
    | cons v vs =>
      have harith : (x :: t).length + k = (t.length + k) + 1 := by
        simp [List.length_cons]; omega
      rw [List.cons_append, harith]
      simp only [setSeg]
      rw [ih ys k (v :: vs)]
      simp

theorem setSeg_drop_take : ∀ (l : List Nat) (off : Nat) (b : List Nat),
    off + b.length ≤ l.length →
    ((setSeg l off b).drop off).take b.length = b := by
  intro l
  induction l with
  | nil =>
    intro off b h
    have hb : b = [] := by
      cases b with
      | nil => rfl
      | cons v vs =>
        simp only [List.length_nil, List.length_cons] at h
        omega
    subst hb
    simp [setSeg]
  | cons x t ih =>
    intro off b h
    cases b with
    | nil => simp
    | cons v vs =>
      cases off with
      | zero =>
        simp only [setSeg, List.drop_zero, List.length_cons, List.take_succ_cons]
        have := ih 0 vs (by simp at h; omega)
        simp only [List.drop_zero] at this
        rw [this]
      | succ o =>
        simp only [setSeg, List.drop_succ_cons]
        exact ih o (v :: vs) (by simp at h ⊢; omega)

theorem pageWriteWal_buf : ∀ (bs : List Nat) (p : dqlite__vfs_page) (off : Nat),
    (pageWriteWal p off bs).buf = p.buf := by
  intro bs
  induction bs with
  | nil => intro p off; rfl
  | cons v vs ih =>
    intro p off
    show (pageWriteWal (pageWriteByteWal p off v) (off + 1) vs).buf = p.buf
    rw [ih]
    rfl

theorem pageWriteWal_mask_length : ∀ (bs : List Nat) (p : dqlite__vfs_page) (off : Nat),
    (pageWriteWal p off bs).dirty_mask.length = p.dirty_mask.length := by
  intro bs
  induction bs with
  | nil => intro p off; rfl
  | cons v vs ih =>
    intro p off
    show (pageWriteWal (pageWriteByteWal p off v) (off + 1) vs).dirty_mask.length
        = p.dirty_mask.length
    rw [ih]
    simp [pageWriteByteWal, writeDirty_fst_length]

theorem pageRead_pageWriteWal : ∀ (bs : List Nat) (p : dqlite__vfs_page) (off : Nat),
    p.dirty_mask.length = p.buf.length →
    pageRead (pageWriteWal p off bs) = setSeg (pageRead p) off bs := by
  intro bs
  induction bs with
  | nil => intro p off h; simp [pageWriteWal, setSeg_nil_right]
  | cons v vs ih =>
    intro p off h
    have h' : (pageWriteByteWal p off v).dirty_mask.length
        = (pageWriteByteWal p off v).buf.length := by
      simp [pageWriteByteWal, writeDirty_fst_length, h]
    calc pageRead (pageWriteWal p off (v :: vs))
        = pageRead (pageWriteWal (pageWriteByteWal p off v) (off + 1) vs) := rfl
      _ = setSeg (pageRead (pageWriteByteWal p off v)) (off + 1) vs := ih _ _ h'
      _ = setSeg ((pageRead p).set off v) (off + 1) vs := by
            rw [show pageRead (pageWriteByteWal p off v) = (pageRead p).set off v from
              overlay_writeDirty p.dirty_mask p.buf p.dirty_buf off v h]
      _ = setSeg (pageRead p) off (v :: vs) := setSeg_set _ _ _ _

theorem overlay_replicate_false : ∀ (buf : List Nat) (n : Nat) (ds : List Nat),
    overlay buf (List.replicate n false) ds = buf := by
  intro buf
  induction buf with
  | nil => intro n ds; simp [overlay]
  | cons b bs ih =>
    intro n ds
    cases n with
    | zero => simp [overlay]
    | succ m => simp [List.replicate, overlay, ih]

theorem pageRead_mkWalFrame (bytes : List Nat) :
    pageRead (mkWalFrame bytes) = bytes := by
  simp [pageRead, mkWalFrame, overlay_replicate_false]

theorem pageRead_foldl_pageWriteWal :
    ∀ (ws : List (Nat × List Nat)) (p : dqlite__vfs_page),
    p.dirty_mask.length = p.buf.length →
    pageRead (ws.foldl (fun q w => pageWriteWal q w.1 w.2) p)
        = ws.foldl (fun acc w => setSeg acc w.1 w.2) (pageRead p)
      ∧ (ws.foldl (fun q w => pageWriteWal q w.1 w.2) p).buf = p.buf := by
  intro ws
  induction ws with
  | nil => intro p h; exact ⟨rfl, rfl⟩
  | cons w ws ih =>
    intro p h
    have h' : (pageWriteWal p w.1 w.2).dirty_mask.length
        = (pageWriteWal p w.1 w.2).buf.length := by
      rw [pageWriteWal_mask_length, pageWriteWal_buf]; exact h
    have hrec := ih (pageWriteWal p w.1 w.2) h'
    constructor
    · simp only [List.foldl_cons]
      rw [hrec.1, pageRead_pageWriteWal w.2 p w.1 h]
    · simp only [List.foldl_cons]
      rw [hrec.2, pageWriteWal_buf]

/-- C1: for every WAL frame, after a full-frame write of bytes `F` followed
by any sequence of partial overwrites within that frame, reading the full
frame returns `F` with each partial write's bytes overlaid exactly at their
offsets, applied in write order (a later write to the same byte wins, as
expressed by the left fold of `setSeg`); and the frame's buffer itself always
still holds the as-first-written bytes `F`, the partial writes being recorded
only in `dirty_mask`/`dirty_buf` and overlaid onto the buffer at read time by
`pageRead`. -/
theorem wal_frame_partial_writes_overlay (F : List Nat) (ws : List (Nat × List Nat)) :
    pageRead (ws.foldl (fun q w => pageWriteWal q w.1 w.2) (mkWalFrame F))
        = ws.foldl (fun acc w => setSeg acc w.1 w.2) F
      ∧ (ws.foldl (fun q w => pageWriteWal q w.1 w.2) (mkWalFrame F)).buf = F := by
  have hwf : (mkWalFrame F).dirty_mask.length = (mkWalFrame F).buf.length := by
    simp [mkWalFrame]
  have := pageRead_foldl_pageWriteWal ws (mkWalFrame F) hwf
  rw [pageRead_mkWalFrame] at this
  exact this

theorem overlay_nil_mask : ∀ (buf ds : List Nat), overlay buf [] ds = buf := by
  intro buf ds
  cases buf <;> simp [overlay]

theorem pageRead_length (p : dqlite__vfs_page) :
    (pageRead p).length = p.buf.length :=
  overlay_length p.buf p.dirty_mask p.dirty_buf

theorem flatten_pages_length : ∀ (l : List dqlite__vfs_page) (ps : Nat),
    (∀ p ∈ l, p.buf.length = ps) →
    ((l.map pageRead).flatten).length = l.length * ps := by
  intro l
  induction l with
  | nil => intro ps h; simp
  | cons p rest ih =>
    intro ps h
    simp only [List.map_cons, List.flatten_cons, List.length_append,
      List.length_cons]
    rw [pageRead_length, h p (by simp), ih ps (fun q hq => h q (by simp [hq]))]
    ring

theorem contentBytes_length (c : dqlite__vfs_content) (h : ContentWF c) :
    (contentBytes c).length = contentExtent c :=
  flatten_pages_length c.pages c.page_size (fun p hp => (h p hp).1)

theorem mkPage_buf_length (ps : Nat) (bytes : List Nat) (t : DqliteVfsType) :
    (mkPage ps bytes t).buf.length = ps := by
  simp [mkPage]
  omega

theorem pageRead_mkPage (ps : Nat) (bytes : List Nat) (t : DqliteVfsType) :
    pageRead (mkPage ps bytes t)
      = (bytes ++ List.replicate (ps - bytes.length) 0).take ps := by
  cases t <;> simp [pageRead, mkPage, overlay_nil_mask, overlay_replicate_false]

theorem pageRead_mkPage_self (bytes : List Nat) (t : DqliteVfsType) :
    pageRead (mkPage bytes.length bytes t) = bytes := by
  rw [pageRead_mkPage]
  simp

theorem vfs_read_zero_length (c : dqlite__vfs_content) (offset : Nat) :
    vfs_read c offset 0 = ([], none) := by
  unfold vfs_read
  split_ifs with h1 h2
  · simp
  · simp
  · exact absurd (by omega : offset + 0 ≤ contentExtent c) h2

theorem getD_mem_of_lt (l : List dqlite__vfs_page) (idx : Nat)
    (h : idx < l.length) : l.getD idx emptyPage ∈ l := by
  rw [List.getD_eq_getElem l emptyPage h]
  exact List.getElem_mem h

theorem flatten_set_page : ∀ (l : List dqlite__vfs_page) (ps idx off : Nat)
    (b : List Nat) (p' : dqlite__vfs_page),
    (∀ p ∈ l, p.buf.length = ps) → idx < l.length →
    pageRead p' = setSeg (pageRead (l.getD idx emptyPage)) off b →
    off + b.length ≤ ps →
    ((l.set idx p').map pageRead).flatten
      = setSeg ((l.map pageRead).flatten) (idx * ps + off) b := by
  intro l
  induction l with
  | nil =>
    intro ps idx off b p' hwf hidx hp' hb
    exact absurd hidx (by simp)
  | cons p rest ih =>
    intro ps idx off b p' hwf hidx hp' hb
    cases idx with
    | zero =>
      simp only [List.set_cons_zero, List.map_cons, List.flatten_cons]
      rw [hp', List.getD_cons_zero]
      rw [show (0 : Nat) * ps + off = off by simp]
      rw [setSeg_append_left _ off b _
        (by rw [pageRead_length, hwf p (by simp)]; exact hb)]
    | succ n =>
      simp only [List.set_cons_succ, List.map_cons, List.flatten_cons]
      rw [ih ps n off b p' (fun q hq => hwf q (by simp [hq]))
        (by simpa using hidx)
        (by simpa [List.getD_cons_succ] using hp') hb]
      have harr : (n + 1) * ps + off = (pageRead p).length + (n * ps + off) := by
        rw [pageRead_length, hwf p (by simp)]
        ring
      rw [harr, setSeg_append_right]

/-- C2: for every well-formed file content and every `read(offset, length)`:
a range entirely at or beyond the current extent succeeds and returns
`length` zero bytes; a range entirely within the extent returns the stored
bytes without error; a range starting before the extent but extending past
it returns the actual bytes up to the extent and fails with `ShortRead` for
the remainder. -/
theorem read_past_extent_cases (c : dqlite__vfs_content)
    (offset length : Nat) (h : ContentWF c) :
    (contentExtent c ≤ offset →
      vfs_read c offset length = (List.replicate length 0, none)) ∧
    (offset + length ≤ contentExtent c →
      vfs_read c offset length
        = (((contentBytes c).drop offset).take length, none)) ∧
    (offset < contentExtent c → contentExtent c < offset + length →
      vfs_read c offset length
        = ((contentBytes c).drop offset, some VfsError.ShortRead)) := by
  refine ⟨?_, ?_, ?_⟩
  · intro h1
    simp [vfs_read, h1]
  · intro h2
    unfold vfs_read
    split_ifs with ha
    · have hlen : length = 0 := by omega
      subst hlen
      simp
    · rfl
  · intro h3 h4
    unfold vfs_read
    split_ifs with ha hb
    · exact absurd h3 (by omega)
    · exact absurd hb (by omega)
    · have : ((contentBytes c).drop offset).take length
          = (contentBytes c).drop offset := by
        apply List.take_of_length_le
        rw [List.length_drop, contentBytes_length c h]
        omega
      rw [this]

/-- C3: writing byte sequence `b` at a page-aligned offset and then reading
the same offset and length back returns exactly `b`, for every well-formed
file content of either kind (the statement quantifies over the content, so
covers both `MainDatabase` and `WriteAheadLog`). -/
theorem aligned_write_read_roundtrip (c : dqlite__vfs_content) (offset : Nat)
    (b : List Nat) (c' : dqlite__vfs_content)
    (hwf : ContentWF c) (halign : offset % c.page_size = 0)
    (hw : vfs_write c offset b = Except.ok c') :
    vfs_read c' offset b.length = (b, none) := by
  unfold vfs_write at hw
  by_cases hfresh : c.pages.length = 0 ∧ c.page_size = 0
  · rw [if_pos hfresh] at hw
    by_cases hoff : offset ≠ 0
    · rw [if_pos hoff] at hw
      exact absurd hw (by simp)
    · rw [if_neg hoff] at hw
      push_neg at hoff
      by_cases hlen : b.length = 0
      · rw [if_pos hlen] at hw
        exact absurd hw (by simp)
      · rw [if_neg hlen] at hw
        injection hw with hc'
        subst hc'
        subst hoff
        unfold vfs_read contentExtent contentBytes
        simp only [List.length_cons, List.length_nil, List.map_cons,
          List.map_nil, List.flatten_cons, List.flatten_nil, List.append_nil]
        rw [if_neg (by omega : ¬ (0 + 1) * b.length ≤ 0),
          if_pos (by omega : 0 + b.length ≤ (0 + 1) * b.length)]
        rw [pageRead_mkPage_self, List.drop_zero, List.take_length]
  · rw [if_neg hfresh] at hw
    by_cases hidx : offset / c.page_size < c.pages.length
    · rw [if_pos hidx] at hw
      by_cases hfit : offset % c.page_size + b.length ≤ c.page_size
      · rw [if_pos hfit] at hw
        injection hw with hc'
        subst hc'
        by_cases hb0 : b.length = 0
        · rw [hb0, vfs_read_zero_length]
          rw [List.length_eq_zero.mp hb0]
        · have hps : 0 < c.page_size := by omega
          have hpmem : c.pages.getD (offset / c.page_size) emptyPage ∈ c.pages :=
            getD_mem_of_lt c.pages _ hidx
          have hview : pageRead (pageWriteAt
              (c.pages.getD (offset / c.page_size) emptyPage)
              (offset % c.page_size) b c.type)
              = setSeg (pageRead (c.pages.getD (offset / c.page_size) emptyPage))
                  (offset % c.page_size) b := by
            rcases htype : c.type with _ | _
            · have hmask : (c.pages.getD (offset / c.page_size)
                  emptyPage).dirty_mask = [] := (hwf _ hpmem).2.2 htype
              show pageRead (pageWriteMain _ _ _) = _
              simp only [pageRead, pageWriteMain, hmask, overlay_nil_mask]
            · exact pageRead_pageWriteWal b _ _ ((hwf _ hpmem).2.1 htype)
          have hflat : contentBytes { c with pages := (c.pages.set
                (offset / c.page_size)
                (pageWriteAt (c.pages.getD (offset / c.page_size) emptyPage)
                  (offset % c.page_size) b c.type)) }
              = setSeg (contentBytes c)
                  ((offset / c.page_size) * c.page_size + offset % c.page_size)
                  b := by
            exact flatten_set_page c.pages c.page_size (offset / c.page_size)
              (offset % c.page_size) b _ (fun p hp => (hwf p hp).1) hidx hview hfit
          have hoffeq : (offset / c.page_size) * c.page_size + offset % c.page_size
              = offset := by
            rw [halign, Nat.add_zero,
              Nat.div_mul_cancel (Nat.dvd_of_mod_eq_zero halign)]
          rw [hoffeq] at hflat
          have hextent : contentExtent { c with pages := (c.pages.set
                (offset / c.page_size)
                (pageWriteAt (c.pages.getD (offset / c.page_size) emptyPage)
                  (offset % c.page_size) b c.type)) } = contentExtent c := by
            simp [contentExtent, List.length_set]
          have hub : offset + b.length ≤ contentExtent c := by
            have h1 : (offset / c.page_size + 1) * c.page_size
                ≤ c.pages.length * c.page_size :=
              Nat.mul_le_mul_right c.page_size (by omega)
            rw [Nat.succ_mul] at h1
            have h2 : offset = (offset / c.page_size) * c.page_size := by
              rw [Nat.div_mul_cancel (Nat.dvd_of_mod_eq_zero halign)]
            rw [halign] at hfit
            unfold contentExtent
            omega
          unfold vfs_read
          rw [hextent, hflat]
          rw [if_neg (by omega : ¬ contentExtent c ≤ offset), if_pos hub]
          rw [setSeg_drop_take (contentBytes c) offset b
            (by rw [contentBytes_length c hwf]; exact hub)]
      · rw [if_neg hfit] at hw
        exact absurd hw (by simp)
    · rw [if_neg hidx] at hw
      by_cases happ : offset / c.page_size = c.pages.length
          ∧ offset % c.page_size = 0 ∧ b.length ≤ c.page_size
      · rw [if_pos happ] at hw
        injection hw with hc'
        subst hc'
        by_cases hb0 : b.length = 0
        · rw [hb0, vfs_read_zero_length]
          rw [List.length_eq_zero.mp hb0]
        · have hps : 0 < c.page_size := by omega
          have hoffeq : offset = c.pages.length * c.page_size := by
            have h2 : offset = (offset / c.page_size) * c.page_size := by
              rw [Nat.div_mul_cancel (Nat.dvd_of_mod_eq_zero halign)]
            rw [happ.1] at h2
            exact h2
          have hflat : contentBytes { c with pages :=
                c.pages ++ [mkPage c.page_size b c.type] }
              = contentBytes c ++ pageRead (mkPage c.page_size b c.type) := by
            show ((c.pages ++ [mkPage c.page_size b c.type]).map pageRead).flatten = _
            rw [List.map_append, List.flatten_append]
            simp [contentBytes]
          have hextent : contentExtent { c with pages :=
                c.pages ++ [mkPage c.page_size b c.type] }
              = (c.pages.length + 1) * c.page_size := by
            simp [contentExtent, List.length_append]
          unfold vfs_read
          rw [hextent, hflat]
          rw [if_neg (by rw [Nat.succ_mul]; omega :
            ¬ (c.pages.length + 1) * c.page_size ≤ offset)]
          rw [if_pos (by rw [Nat.succ_mul]; omega :
            offset + b.length ≤ (c.pages.length + 1) * c.page_size)]
          have hdrop : (contentBytes c
                ++ pageRead (mkPage c.page_size b c.type)).drop offset
              = pageRead (mkPage c.page_size b c.type) := by
            rw [show offset = (contentBytes c).length by
              rw [contentBytes_length c hwf]; exact hoffeq]
            exact List.drop_left _ _
          rw [hdrop, pageRead_mkPage, List.take_take,
            inf_eq_left.mpr happ.2.2, List.take_left]
      · rw [if_neg happ] at hw
        exact absurd hw (by simp)

/-- C7 counterexample: the claim asserts that whenever `new_size` is a
multiple of the page size, `truncate(new_size)` succeeds with
`extent() == new_size` afterwards; but truncating the one-page content of
extent 1 to size 2 (a multiple of its page size 1) succeeds as a no-op —
truncation only drops trailing pages and never extends — so the extent stays
1 and is not the requested 2. -/
theorem truncate_extent_counterexample :
    vfs_truncate oneByteContent 2 = Except.ok oneByteContent ∧
    contentExtent oneByteContent = 1 ∧ (1 : Nat) ≠ 2 := by
  refine ⟨rfl, by decide, by decide⟩

/-- C7 (amended): for every content with established page size,
`truncate(new_size)` fails with `InvalidSize` iff `new_size` is not a
multiple of `page_size` (zero counts as a multiple); otherwise, provided
`new_size` does not exceed the current extent, it drops exactly the trailing
pages beyond index `new_size / page_size`, so that afterwards
`extent() == new_size`, and reads entirely beyond the new extent return
zero-fill with no error. -/
theorem truncate_drops_trailing_pages (c : dqlite__vfs_content)
    (new_size : Nat) (hps : 0 < c.page_size) :
    (¬ new_size % c.page_size = 0 →
      vfs_truncate c new_size = .error .InvalidSize) ∧
    (new_size % c.page_size = 0 → new_size ≤ contentExtent c →
      vfs_truncate c new_size
          = .ok { c with pages := (c.pages.take (new_size / c.page_size)) } ∧
        contentExtent { c with
          pages := (c.pages.take (new_size / c.page_size)) } = new_size ∧
        ∀ off len, new_size ≤ off →
          vfs_read { c with pages := (c.pages.take (new_size / c.page_size)) }
            off len = (List.replicate len 0, none)) := by
  constructor
  · intro hmod
    simp [vfs_truncate, hmod]
  · intro hmod hle
    have hdvd := Nat.dvd_of_mod_eq_zero hmod
    have hdiv : new_size / c.page_size ≤ c.pages.length := by
      have h1 : new_size / c.page_size
          ≤ c.pages.length * c.page_size / c.page_size :=
        Nat.div_le_div_right hle
      rwa [Nat.mul_div_cancel _ hps] at h1
    have hextent : contentExtent { c with
        pages := (c.pages.take (new_size / c.page_size)) } = new_size := by
      show (c.pages.take (new_size / c.page_size)).length * c.page_size
          = new_size
      rw [List.length_take, inf_eq_left.mpr hdiv, Nat.div_mul_cancel hdvd]
    refine ⟨by simp [vfs_truncate, hmod], hextent, ?_⟩
    intro off len hoff
    unfold vfs_read
    rw [if_pos (by rw [hextent]; exact hoff)]

/-- C5: starting from a non-negative transaction count, after any sequence
of `begin_transaction` / `end_transaction` calls the count is still
non-negative (an `end_transaction` at count zero fails with `Invariant`
instead of decrementing below zero), and `can_checkpoint` is true exactly
when the count is zero, i.e. when every begin has been matched by an end. -/
theorem tx_refcount_never_negative (c : dqlite__vfs_content)
    (ops : List TxOp) (h : 0 ≤ c.tx_refcount) :
    0 ≤ (List.foldl applyTxOp c ops).tx_refcount ∧
    ((List.foldl applyTxOp c ops).tx_refcount = 0 →
      end_transaction (List.foldl applyTxOp c ops)
        = .error .Invariant) ∧
    (can_checkpoint (List.foldl applyTxOp c ops) = true
      ↔ (List.foldl applyTxOp c ops).tx_refcount = 0) := by
  have key : ∀ (ops : List TxOp) (c : dqlite__vfs_content),
      0 ≤ c.tx_refcount → 0 ≤ (List.foldl applyTxOp c ops).tx_refcount := by
    intro ops
    induction ops with
    | nil => intro c hc; exact hc
    | cons op rest ih =>
      intro c hc
      simp only [List.foldl_cons]
      apply ih
      cases op with
      | beginTx =>
        simp only [applyTxOp, begin_transaction]
        omega
      | endTx =>
        by_cases h1 : c.tx_refcount < 1
        · simp only [applyTxOp, end_transaction, if_pos h1]
          exact hc
        · simp only [applyTxOp, end_transaction, if_neg h1]
          omega
  refine ⟨key ops c h, ?_, ?_⟩
  · intro h0
    simp [end_transaction, h0]
  · simp [can_checkpoint]

/-- C6: shared-memory regions must be mapped in strictly increasing index
order: `map(region_index)` returns the stored region when the index is below
the region count, allocates and appends a zero-filled fixed-size region
exactly when the index equals the region count, and fails with
`InvalidRegion` whenever the index exceeds the region count. -/
theorem shm_map_sequential (c : dqlite__vfs_content) (i : Nat) :
    (i < c.shm_regions.length →
      vfs_map c i = .ok (c, c.shm_regions.getD i [])) ∧
    (i = c.shm_regions.length →
      vfs_map c i = .ok ({ c with shm_regions :=
          c.shm_regions ++ [List.replicate SHM_REGION_SIZE 0] },
        List.replicate SHM_REGION_SIZE 0)) ∧
    (c.shm_regions.length < i →
      vfs_map c i = .error .InvalidRegion) := by
  refine ⟨?_, ?_, ?_⟩
  · intro h1
    simp [vfs_map, h1]
  · intro h2
    subst h2
    unfold vfs_map
    rw [if_neg (by omega), if_pos rfl]
  · intro h3
    unfold vfs_map
    rw [if_neg (by omega), if_neg (by omega)]

theorem find?_map_of_pred_pres (l : List dqlite__vfs_content)
    (g : dqlite__vfs_content → dqlite__vfs_content)
    (p : dqlite__vfs_content → Bool) (hg : ∀ c, p (g c) = p c) :
    (l.map g).find? p = (l.find? p).map g := by
  induction l with
  | nil => rfl
  | cons d rest ih =>
    simp only [List.map_cons]
    by_cases hd : p d
    · rw [List.find?_cons_of_pos _ (by rw [hg]; exact hd),
        List.find?_cons_of_pos _ hd]
      rfl
    · rw [List.find?_cons_of_neg _ (by rw [hg]; exact hd),
        List.find?_cons_of_neg _ hd, ih]

theorem find?_filter_ne (l : List dqlite__vfs_content) (f : String) :
    (l.filter (fun d => !(d.filename == f))).find?
      (fun d => d.filename == f) = none := by
  induction l with
  | nil => rfl
  | cons d rest ih =>
    by_cases hd : d.filename == f
    · simp only [List.filter_cons, hd, Bool.not_true, if_neg]
      simpa using ih
    · have hd' : (d.filename == f) = false := by
        exact Bool.not_eq_true _ ▸ (by simpa using hd)
      simp only [List.filter_cons, hd', Bool.not_false, if_pos]
      rw [List.find?_cons_of_neg _ (by simp [hd']), ih]

/-- C4: for every registry and filename whose content has a positive
descriptor refcount, `delete(filename)` fails with `Busy` and leaves the
registry's contents unchanged (the content still registered with all its
pages and shared regions intact); only with refcount 0 does `delete` remove
the content from the registry, after which it is no longer found. -/
theorem delete_busy_or_removes (r : dqlite__vfs_root) (f : String)
    (c : dqlite__vfs_content) (hfind : findContent r f = some c) :
    (0 < c.refcount →
      vfs_delete r f = .error .Busy ∧
      (match vfs_delete r f with
        | .ok r' => r'
        | .error _ => r).contents = r.contents) ∧
    (c.refcount = 0 →
      vfs_delete r f = .ok { r with contents :=
        (r.contents.filter (fun d => !(d.filename == f))) } ∧
      findContent { r with contents :=
        (r.contents.filter (fun d => !(d.filename == f))) } f = none) := by
  constructor
  · intro hpos
    have hdel : vfs_delete r f = .error .Busy := by
      unfold vfs_delete
      rw [hfind]
      exact if_pos hpos
    exact ⟨hdel, by rw [hdel]⟩
  · intro hzero
    have hdel : vfs_delete r f = .ok { r with contents :=
        (r.contents.filter (fun d => !(d.filename == f))) } := by
      have hneg : ¬ 0 < c.refcount := by omega
      unfold vfs_delete
      rw [hfind]
      exact if_neg hneg
    refine ⟨hdel, ?_⟩
    show (r.contents.filter (fun d => !(d.filename == f))).find?
      (fun d => d.filename == f) = none
    exact find?_filter_ne r.contents f

/-- C8: for every filename `f`, `find_or_create(f, create=false)` fails with
`NotFound` while no content named `f` exists; after a successful
`find_or_create(f, create=true)`, `exists(f)` returns true, and returning
the content reference increments the content's descriptor refcount (a
freshly created content comes back with refcount 1 = 0 + 1). -/
theorem find_or_create_contract (r : dqlite__vfs_root) (f : String) :
    (findContent r f = none →
      find_or_create r f false = .error .NotFound) ∧
    (∀ r', find_or_create r f true = .ok r' →
      vfs_exists r' f = true ∧
      contentRefcount r' f = contentRefcount r f + 1) := by
  constructor
  · intro hnone
    have hany : r.contents.any (fun c => c.filename == f) = false := by
      rw [List.any_eq_false]
      exact List.find?_eq_none.mp hnone
    simp [find_or_create, hany]
  · intro r' hr'
    unfold find_or_create at hr'
    by_cases hany : r.contents.any (fun c => c.filename == f)
    · rw [if_pos hany] at hr'
      injection hr' with h
      subst h
      have hpres : ∀ c : dqlite__vfs_content,
          ((if c.filename == f then { c with refcount := c.refcount + 1 }
            else c).filename == f) = (c.filename == f) := by
        intro c
        by_cases hc : c.filename == f <;> simp [hc]
      obtain ⟨x, hx, hpx⟩ := List.any_eq_true.mp hany
      constructor
      · unfold vfs_exists findContent
        rw [find?_map_of_pred_pres _ _ _ hpres]
        cases hfind : r.contents.find? (fun c => c.filename == f) with
        | none => exact absurd hpx (List.find?_eq_none.mp hfind x hx)
        | some d => rfl
      · unfold contentRefcount findContent
        rw [find?_map_of_pred_pres _ _ _ hpres]
        cases hfind : r.contents.find? (fun c => c.filename == f) with
        | none => exact absurd hpx (List.find?_eq_none.mp hfind x hx)
        | some d =>
          have hd : (d.filename == f) = true :=
            @List.find?_some _ (fun c => c.filename == f) d r.contents hfind
          have hd' : d.filename = f := by simpa using hd
          simp [hd']
    · rw [if_neg hany, if_pos rfl] at hr'
      injection hr' with h
      subst h
      have hfnone : r.contents.find? (fun c => c.filename == f) = none :=
        List.find?_eq_none.mpr (List.any_eq_false.mp (by simpa using hany))
      have hafter : ((if content_type_of f = DqliteVfsType.WriteAheadLog then
          r.contents.map (fun c =>
            if c.filename = wal_main_filename f
                ∧ c.type = DqliteVfsType.MainDatabase then
              { c with wal := some f }
            else c)
        else r.contents) ++ [emptyContent f]).find?
          (fun c => c.filename == f) = some (emptyContent f) := by
        rw [List.find?_append]
        have hleft : (if content_type_of f = DqliteVfsType.WriteAheadLog then
            r.contents.map (fun c =>
              if c.filename = wal_main_filename f
                  ∧ c.type = DqliteVfsType.MainDatabase then
                { c with wal := some f }
              else c)
          else r.contents).find? (fun c => c.filename == f) = none := by
          split_ifs with hwal
          · rw [find?_map_of_pred_pres _ _ _ (by
              intro c
              by_cases hc : c.filename = wal_main_filename f
                  ∧ c.type = DqliteVfsType.MainDatabase <;> simp [hc])]
            rw [hfnone]
            rfl
          · exact hfnone
        rw [hleft]
        rw [List.find?_cons_of_pos _ (by simp [emptyContent])]
        rfl
      constructor
      · unfold vfs_exists findContent
        rw [hafter]
        rfl
      · unfold contentRefcount findContent
        rw [hafter, hfnone]
        rfl

theorem wal_main_filename_ne (f : String)
    (h : content_type_of f = DqliteVfsType.WriteAheadLog) :
    wal_main_filename f ≠ f := by
  unfold content_type_of at h
  by_cases hs : walSuffix.isSuffixOf f.data
  · have hsuffix : walSuffix <:+ f.data := List.isSuffixOf_iff_suffix.mp hs
    have hlen : walSuffix.length ≤ f.data.length :=
      List.IsSuffix.length_le hsuffix
    intro heq
    have h1 : (f.data.take (f.data.length - walSuffix.length)) = f.data :=
      congrArg String.data heq
    have h2 := congrArg List.length h1
    rw [List.length_take,
      inf_eq_left.mpr (Nat.sub_le f.data.length walSuffix.length)] at h2
    have h4 : walSuffix.length = 4 := rfl
    omega
  · rw [if_neg hs] at h
    exact absurd h (by simp)

theorem updateWith_walInv (r : dqlite__vfs_root) (f : String)
    (g : dqlite__vfs_content → Except VfsError dqlite__vfs_content)
    (hg : ∀ c c', g c = .ok c' →
      c'.wal = c.wal ∧ c'.type = c.type ∧ c'.filename = c.filename)
    (h : WalLinkInv r) : WalLinkInv (updateWith r f g) := by
  cases hfind : findContent r f with
  | none =>
    unfold updateWith
    simp only [hfind]
    exact h
  | some c0 =>
    cases hgc : g c0 with
    | error e =>
      unfold updateWith
      simp only [hfind, hgc]
      exact h
    | ok c' =>
      unfold updateWith
      simp only [hfind, hgc]
      intro d hd
      rw [List.mem_map] at hd
      obtain ⟨d0, hd0, hmap⟩ := hd
      by_cases hn : d0.filename == f
      · rw [if_pos hn] at hmap
        subst hmap
        have hc0 : c0 ∈ r.contents := List.mem_of_find?_eq_some hfind
        have hf := hg c0 c' hgc
        have hinv := h c0 hc0
        constructor
        · intro ht
          rw [hf.1]
          exact hinv.1 (by rw [← hf.2.1]; exact ht)
        · intro g' hg'
          rw [hf.1] at hg'
          have hres := hinv.2 g' hg'
          exact ⟨by rw [hf.2.1]; exact hres.1,
            by rw [hf.2.2]; exact hres.2⟩
      · rw [if_neg hn] at hmap
        subst hmap
        exact h d0 hd0

theorem vfs_write_preserves_link (c : dqlite__vfs_content) (off : Nat)
    (bs : List Nat) (c' : dqlite__vfs_content)
    (h : vfs_write c off bs = .ok c') :
    c'.wal = c.wal ∧ c'.type = c.type ∧ c'.filename = c.filename := by
  unfold vfs_write at h
  split_ifs at h <;>
    first
      | (injection h with h'; subst h'; exact ⟨rfl, rfl, rfl⟩)
      | injection h

theorem vfs_truncate_preserves_link (c : dqlite__vfs_content) (sz : Nat)
    (c' : dqlite__vfs_content) (h : vfs_truncate c sz = .ok c') :
    c'.wal = c.wal ∧ c'.type = c.type ∧ c'.filename = c.filename := by
  unfold vfs_truncate at h
  split_ifs at h <;>
    first
      | (injection h with h'; subst h'; exact ⟨rfl, rfl, rfl⟩)
      | injection h

theorem vfs_map_preserves_link (c : dqlite__vfs_content) (i : Nat)
    (c' : dqlite__vfs_content)
    (h : (vfs_map c i).map Prod.fst = .ok c') :
    c'.wal = c.wal ∧ c'.type = c.type ∧ c'.filename = c.filename := by
  unfold vfs_map at h
  split_ifs at h <;>
    first
      | (injection h with h'; subst h'; exact ⟨rfl, rfl, rfl⟩)
      | injection h

theorem end_transaction_preserves_link (c : dqlite__vfs_content)
    (c' : dqlite__vfs_content) (h : end_transaction c = .ok c') :
    c'.wal = c.wal ∧ c'.type = c.type ∧ c'.filename = c.filename := by
  unfold end_transaction at h
  split_ifs at h <;>
    first
      | (injection h with h'; subst h'; exact ⟨rfl, rfl, rfl⟩)
      | injection h

theorem applyRootOp_walInv (r : dqlite__vfs_root) (op : RootOp)
    (h : WalLinkInv r) : WalLinkInv (applyRootOp r op) := by
  cases op with
  | findOrCreate f b =>
    unfold applyRootOp
    cases hfc : find_or_create r f b with
    | error e =>
      simp only [hfc]
      exact h
    | ok r' =>
      simp only [hfc]
      unfold find_or_create at hfc
      split_ifs at hfc with h1 h2 hwal
      · injection hfc with h'
        subst h'
        intro d hd
        rw [List.mem_map] at hd
        obtain ⟨d0, hd0, hmap⟩ := hd
        by_cases hn : d0.filename == f
        · rw [if_pos hn] at hmap
          subst hmap
          exact h d0 hd0
        · rw [if_neg hn] at hmap
          subst hmap
          exact h d0 hd0
      · injection hfc with h'
        subst h'
        intro d hd
        rw [List.mem_append] at hd
        cases hd with
        | inr hd2 =>
          have hde : d = emptyContent f := by simpa using hd2
          subst hde
          exact ⟨fun _ => rfl, fun g' hg' => absurd hg' (by simp [emptyContent])⟩
        | inl hd1 =>
          rw [List.mem_map] at hd1
          obtain ⟨d0, hd0, hmap⟩ := hd1
          by_cases hn : d0.filename = wal_main_filename f
              ∧ d0.type = DqliteVfsType.MainDatabase
          · rw [if_pos hn] at hmap
            subst hmap
            constructor
            · intro ht
              have ht' : d0.type = DqliteVfsType.WriteAheadLog := ht
              rw [hn.2] at ht'
              exact absurd ht' (by simp)
            · intro g' hg'
              have hg'' : g' = f := by
                have hsome : some f = some g' := hg'
                exact (Option.some.inj hsome).symm
              refine ⟨hn.2, ?_⟩
              show g' ≠ d0.filename
              rw [hg'', hn.1]
              exact Ne.symm (wal_main_filename_ne f hwal)
          · rw [if_neg hn] at hmap
            subst hmap
            exact h d0 hd0
      · injection hfc with h'
        subst h'
        intro d hd
        rw [List.mem_append] at hd
        cases hd with
        | inl hd1 => exact h d hd1
        | inr hd2 =>
          have hde : d = emptyContent f := by simpa using hd2
          subst hde
          exact ⟨fun _ => rfl, fun g' hg' => absurd hg' (by simp [emptyContent])⟩
  | deleteFile f =>
    unfold applyRootOp
    cases hdel : vfs_delete r f with
    | error e =>
      simp only [hdel]
      exact h
    | ok r' =>
      simp only [hdel]
      unfold vfs_delete at hdel
      cases hfind : findContent r f with
      | none =>
        simp only [hfind] at hdel
        injection hdel
      | some c0 =>
        simp only [hfind] at hdel
        split_ifs at hdel with hrc
        injection hdel with h'
        subst h'
        intro d hd
        exact h d (List.mem_of_mem_filter hd)
  | writeFile f off bs =>
    exact updateWith_walInv r f _
      (fun c c' hc => vfs_write_preserves_link c off bs c' hc) h
  | truncateFile f sz =>
    exact updateWith_walInv r f _
      (fun c c' hc => vfs_truncate_preserves_link c sz c' hc) h
  | readFile f off len =>
    unfold applyRootOp
    cases hfind : findContent r f with
    | none =>
      simp only [hfind]
      exact h
    | some c =>
      simp only [hfind]
      cases (vfs_read c off len).2 <;> exact h
  | mapRegion f i =>
    exact updateWith_walInv r f _
      (fun c c' hc => vfs_map_preserves_link c i c' hc) h
  | beginTxOn f =>
    exact updateWith_walInv r f _
      (fun c c' hc => by
        injection hc with h'
        subst h'
        exact ⟨rfl, rfl, rfl⟩) h
  | endTxOn f =>
    exact updateWith_walInv r f _
      (fun c c' hc => end_transaction_preserves_link c c' hc) h
  | releaseFile f =>
    exact updateWith_walInv r f _
      (fun c c' hc => by
        injection hc with h'
        subst h'
        exact ⟨rfl, rfl, rfl⟩) h

/-- C9: WAL linkage is one level deep and one-directional — in every
registry state reachable from the empty registry by any sequence of
operations, a content of kind `WriteAheadLog` has an empty `wal` field, only
a `MainDatabase` content ever holds a `wal` reference, and no content's
`wal` field references the content itself. -/
theorem wal_link_one_level (ops : List RootOp) :
    WalLinkInv (List.foldl applyRootOp emptyRoot ops) := by
  have key : ∀ (ops : List RootOp) (r : dqlite__vfs_root), WalLinkInv r →
      WalLinkInv (List.foldl applyRootOp r ops) := by
    intro ops
    induction ops with
    | nil => intro r h; exact h
    | cons op rest ih =>
      intro r h
      exact ih _ (applyRootOp_walInv r op h)
  apply key
  intro c hc
  exact absurd hc (by simp [emptyRoot])

theorem find_or_create_ok_error (r : dqlite__vfs_root) (f : String)
    (b : Bool) (r' : dqlite__vfs_root)
    (h : find_or_create r f b = .ok r') : r'.error = r.error := by
  unfold find_or_create at h
  split_ifs at h <;>
    first
      | (injection h with h'; subst h'; rfl)
      | injection h

theorem vfs_delete_ok_error (r : dqlite__vfs_root) (f : String)
    (r' : dqlite__vfs_root) (h : vfs_delete r f = .ok r') :
    r'.error = r.error := by
  unfold vfs_delete at h
  cases hfind : findContent r f with
  | none =>
    simp only [hfind] at h
    injection h
  | some c0 =>
    simp only [hfind] at h
    split_ifs at h with hrc
    injection h with h'
    subst h'
    rfl

theorem updateWith_error (r : dqlite__vfs_root) (f : String)
    (g : dqlite__vfs_content → Except VfsError dqlite__vfs_content) :
    (updateWith r f g).error = (contentOpFailure r f g).getD r.error := by
  unfold updateWith contentOpFailure
  cases hfind : findContent r f with
  | none => rfl
  | some c =>
    cases hgc : g c with
    | error e =>
      simp only [hgc]
      rfl
    | ok c' =>
      simp only [hgc]
      rfl

theorem applyRootOp_error (r : dqlite__vfs_root) (op : RootOp) :
    (applyRootOp r op).error = (opFailureCode r op).getD r.error := by
  cases op with
  | findOrCreate f b =>
    simp only [applyRootOp, opFailureCode]
    cases hfc : find_or_create r f b with
    | ok r' => exact find_or_create_ok_error r f b r' hfc
    | error e => rfl
  | deleteFile f =>
    simp only [applyRootOp, opFailureCode]
    cases hdel : vfs_delete r f with
    | ok r' => exact vfs_delete_ok_error r f r' hdel
    | error e => rfl
  | writeFile f off bs =>
    simp only [applyRootOp, opFailureCode]
    exact updateWith_error r f _
  | truncateFile f sz =>
    simp only [applyRootOp, opFailureCode]
    exact updateWith_error r f _
  | readFile f off len =>
    simp only [applyRootOp, opFailureCode]
    cases hfind : findContent r f with
    | none => rfl
    | some c =>
      show (match (vfs_read c off len).2 with
        | some e => set_last_error r (errcode e)
        | none => r).error
        = ((vfs_read c off len).2.map errcode).getD r.error
      cases (vfs_read c off len).2 with
      | none => rfl
      | some e => rfl
  | mapRegion f i =>
    simp only [applyRootOp, opFailureCode]
    exact updateWith_error r f _
  | beginTxOn f =>
    simp only [applyRootOp, opFailureCode]
    exact updateWith_error r f _
  | endTxOn f =>
    simp only [applyRootOp, opFailureCode]
    exact updateWith_error r f _
  | releaseFile f =>
    simp only [applyRootOp, opFailureCode]
    exact updateWith_error r f _

/-- C10: successful operations leave the registry's last-error slot
unchanged and only a failing operation overwrites it, so after any sequence
of operations `last_error()` returns the code of the most recent failure in
that sequence, or the initial value if none failed (`traceError` threads
exactly the failure codes); moreover `set_last_error` / `last_error` touch
no registry field other than the error slot. -/
theorem last_error_tracks_failures (r : dqlite__vfs_root)
    (ops : List RootOp) :
    last_error (List.foldl applyRootOp r ops)
        = traceError r (last_error r) ops ∧
    ∀ code : Int, (set_last_error r code).contents = r.contents ∧
      last_error (set_last_error r code) = code := by
  constructor
  · have key : ∀ (ops : List RootOp) (r : dqlite__vfs_root) (e : Int),
        r.error = e →
        (List.foldl applyRootOp r ops).error = traceError r e ops := by
      intro ops
      induction ops with
      | nil =>
        intro r e he
        exact he
      | cons op rest ih =>
        intro r e he
        simp only [List.foldl_cons, traceError]
        apply ih
        rw [applyRootOp_error, he]
    exact key ops r r.error rfl
  · intro code
    exact ⟨rfl, rfl⟩

/-- Witness for C2 at a concrete input: reading 3 bytes at offset 1 of a
2-byte file returns the single stored byte and a `ShortRead` error. -/
theorem read_past_extent_cases_witness :
    vfs_read exampleMainContent 1 3
      = ((contentBytes exampleMainContent).drop 1, some VfsError.ShortRead) :=
  (read_past_extent_cases exampleMainContent 1 3
    (by unfold ContentWF; decide)).2.2 (by decide) (by decide)

/-- Witness for C3 at a concrete input: overwriting the single page with
`[7, 8]` at offset 0 and reading 2 bytes at offset 0 returns `[7, 8]`. -/
theorem aligned_write_read_roundtrip_witness :
    vfs_read exampleWrittenContent 0 2 = ([7, 8], none) :=
  aligned_write_read_roundtrip exampleMainContent 0 [7, 8]
    exampleWrittenContent
    (by unfold ContentWF; decide) (by decide) (by rfl)

/-- Witness for C4 at a concrete input: deleting a file whose content has an
open descriptor fails with `Busy`. -/
theorem delete_busy_or_removes_witness :
    vfs_delete exampleBusyRoot "test.db" = Except.error VfsError.Busy :=
  ((delete_busy_or_removes exampleBusyRoot "test.db"
    { exampleMainContent with refcount := 1 } (by rfl)).1 (by decide)).1

/-- Witness for C5 at a concrete input: after begin, end, and a failing
extra end, the transaction count of a fresh content is still
non-negative. -/
theorem tx_refcount_never_negative_witness :
    0 ≤ (List.foldl applyTxOp (emptyContent "db")
      [TxOp.beginTx, TxOp.endTx, TxOp.endTx]).tx_refcount :=
  (tx_refcount_never_negative (emptyContent "db")
    [TxOp.beginTx, TxOp.endTx, TxOp.endTx] (by decide)).1

/-- Witness for C6 at a concrete input: mapping region 2 of a content with
no regions fails with `InvalidRegion`. -/
theorem shm_map_sequential_witness :
    vfs_map (emptyContent "db") 2 = Except.error VfsError.InvalidRegion :=
  (shm_map_sequential (emptyContent "db") 2).2.2 (by decide)

/-- Witness for C7 (amended) at a concrete input: truncating the one-page
content of page size 1 to size 1 keeps the extent at 1. -/
theorem truncate_drops_trailing_pages_witness :
    contentExtent { oneByteContent with
      pages := (oneByteContent.pages.take (1 / oneByteContent.page_size)) }
      = 1 :=
  ((truncate_drops_trailing_pages oneByteContent 1 (by decide)).2
    (by decide) (by decide)).2.1

/-- Witness for C8 at a concrete input: opening a missing file without the
create flag fails with `NotFound`. -/
theorem find_or_create_contract_witness :
    find_or_create emptyRoot "test.db" false = Except.error VfsError.NotFound :=
  (find_or_create_contract emptyRoot "test.db").1 (by rfl)
